import Mathlib

/-!
Verification development for the paragraph-segmentation core of the
confectionary repository.

Strings are modelled as lists of characters.  The function
split_to_pars is translated from confectionary/report_generation.py;
generic_text from confectionary/pdf.py; get_first_number and
load_files_ext from confectionary/utils.py.  External collaborators
(the sentence tokenizer, the sklearn vectorizer and the textsplit
penalty/DP/assembly routines) are not part of the repository source;
they are modelled from the spec, each marked in its doc comment.
Possible runtime failures inside the external numerical code are
modelled by explicit boolean flags.
-/

set_option maxRecDepth 8000

abbrev Str := List Char

/-- The whitespace characters stripped by Python str.strip(). -/
def isPySpace (c : Char) : Bool :=
  (c = ' ') || (c = '\t') || (c = '\n') || (c = '\r') ||
    (c = Char.ofNat 11) || (c = Char.ofNat 12)

/-- Drop the longest suffix whose characters satisfy p. -/
def dropTrailing (p : Char → Bool) (s : Str) : Str :=
  (s.reverse.dropWhile p).reverse

/-- Python str.strip with the set of stripped characters given by p. -/
def stripWith (p : Char → Bool) (s : Str) : Str :=
  dropTrailing p (s.dropWhile p)

/-- Python str.strip() with no argument: strips all whitespace. -/
def stripWS (s : Str) : Str := stripWith isPySpace s

/-- Python str.strip(" "): strips only the space character,
as done on line 187 of report_generation.py. -/
def stripSpaces (s : Str) : Str := stripWith (fun c => c = ' ') s

/-- Python " ".join. -/
def joinSpace : List Str → Str
  | [] => []
  | [s] => s
  | s :: t :: ts => s ++ ' ' :: joinSpace (t :: ts)

/-- Python s.split("."): splits on every dot, keeping empty pieces. -/
def splitOnDot : Str → List Str
  | [] => [[]]
  | c :: cs =>
    if c = '.' then [] :: splitOnDot cs
    else
      match splitOnDot cs with
      | [] => [[c]]
      | w :: ws => (c :: w) :: ws

/-- The tokenizer outcome fed to split_to_pars: either a degenerate
single string (Sum.inl) or a proper sentence sequence (Sum.inr). -/
def sentencedText (tokOut : Sum Str (List Str)) : List Str :=
  match tokOut with
  | Sum.inl s => splitOnDot s
  | Sum.inr l => l

/-- Whitespace word splitting, accumulating the current word reversed. -/
def wordsAux (cur : Str) : Str → List Str
  | [] => if cur = [] then [] else [cur.reverse]
  | c :: cs =>
    if isPySpace c then
      if cur = [] then wordsAux [] cs else cur.reverse :: wordsAux [] cs
    else wordsAux (c :: cur) cs

/-- The whitespace-delimited words of a string, empty words dropped. -/
def words (s : Str) : List Str := wordsAux [] s

/-- Whitespace-normalize a string: collapse whitespace runs to single
spaces and trim the ends.  This follows the spec's wording of the
coverage property, for comparison against the code. -/
def normalizeWS (s : Str) : Str := joinSpace (words s)

/-- Pointwise sum of two vectors, the shorter padded with zeros. -/
def vecAdd : List ℤ → List ℤ → List ℤ
  | [], b => b
  | a :: as, [] => a :: as
  | a :: as, b :: bs => (a + b) :: vecAdd as bs

/-- Dot product of two vectors. -/
def dotProd (a b : List ℤ) : ℤ := (List.zipWith (fun x y => x * y) a b).sum

/-- Look a token up in the word-vector table; misses give the zero
(empty) vector.  Modelled from the spec: out-of-vocabulary tokens are
silently ignored. -/
def lookupVec (table : List (Str × List ℤ)) (t : Str) : List ℤ :=
  match table.find? (fun p => p.1 == t) with
  | some p => p.2
  | none => []

/-- Modelled from the spec: the sentence vectorizer (sklearn
CountVectorizer composed with the word-vector matrix, not repository
code) maps a sentence to the count-weighted sum of the word vectors of
its in-vocabulary tokens; a sentence with no recognized token yields
the zero vector. -/
def vectorize (table : List (Str × List ℤ)) (s : Str) : List ℤ :=
  (words s).foldl (fun acc t => vecAdd acc (lookupVec table t)) []

/-- Squared euclidean norm of a vector. -/
def sqNorm (v : List ℤ) : ℤ := dotProd v v

/-- Modelled from the spec: the penalty calibrator (textsplit
get_penalty, not repository code).  The spec leaves the numeric scheme
open but requires a non-negative scalar that is monotone in the target
segment length; we use the closed-form target length times the total
squared norm of the sentence vectors. -/
def get_penalty (vecs : List (List ℤ)) (segment_len : ℕ) : ℤ :=
  (segment_len : ℤ) * (vecs.map sqNorm).sum

/-- Modelled from the spec: intra-segment incoherence cost of one
candidate segment, the negated squared norm of the summed sentence
vectors (a monotone, symmetric coherence measure as 4.4 allows). -/
def segCost (seg : List (List ℤ)) : ℤ := - sqNorm (seg.foldl vecAdd [])

/-- Modelled from the spec: split a list into the contiguous pieces
prescribed by a composition (textsplit get_segments, not repository
code). -/
def splitComp : List ℕ → List Str → List (List Str)
  | [], _ => []
  | k :: ks, xs => xs.take k :: splitComp ks (xs.drop k)

/-- Same splitting on the vector sequence. -/
def splitCompV : List ℕ → List (List ℤ) → List (List (List ℤ))
  | [], _ => []
  | k :: ks, xs => xs.take k :: splitCompV ks (xs.drop k)

/-- Total objective of a candidate partition: the sum of the segment
costs plus the penalty charged once per segment (spec 4.4). -/
def totalCost (p : ℤ) (vecs : List (List ℤ)) (c : List ℕ) : ℤ :=
  ((splitCompV c vecs).map segCost).sum + p * (c.length : ℤ)

/-- Increment the first part of a composition, if any. -/
def extendHead : List ℕ → List (List ℕ)
  | [] => []
  | a :: c => [(a + 1) :: c]

/-- All compositions of n: lists of positive integers summing to n. -/
def compositions : ℕ → List (List ℕ)
  | 0 => [[]]
  | n + 1 =>
    (compositions n).flatMap (fun c => (1 :: c) :: extendHead c)

/-- First minimum of f over a list; ties keep the earlier element, so
the selection is the deterministic left-to-right scan required by the
spec's tie-break policy. -/
def pickMin (f : List ℕ → ℤ) : List (List ℕ) → Option (List ℕ)
  | [] => none
  | a :: l =>
    match pickMin f l with
    | none => some a
    | some b => if f b < f a then some b else some a

/-- Modelled from the spec: the optimal segmenter (textsplit
split_optimal, not repository code) returns the partition minimizing
the penalized objective over all partitions of the sentence range into
contiguous non-empty segments, with a deterministic tie-break. -/
def bestComp (p : ℤ) (vecs : List (List ℤ)) : List ℕ :=
  (pickMin (totalCost p vecs) (compositions vecs.length)).getD
    (List.replicate vecs.length 1)

/-- Translated from split_to_pars, report_generation.py lines 160-188,
starting after sentence tokenization (the tokenizer outcome is the
tokOut argument; a string outcome is re-split on "." as on line 161).
The guard on line 164 compares the sentence count to segment_len; the
vectorization of lines 165-166 runs before the try block and its
failure (vecFail) propagates; a failure inside the try block of lines
167-177 (dpFail) degrades to the untouched sentence list; line 187
strips spaces (only the space character) from every paragraph. -/
def split_to_pars (tokOut : Sum Str (List Str)) (table : List (Str × List ℤ))
    (segment_len : ℕ) (vecFail dpFail : Bool) : Except Unit (List Str) :=
  let sentenced := sentencedText tokOut
  if sentenced.length > segment_len then
    match (if vecFail then Except.error () else
            Except.ok (sentenced.map (vectorize table)) :
            Except Unit (List (List ℤ))) with
    | Except.error e => Except.error e
    | Except.ok vecs =>
      let paragraphs :=
        if dpFail then sentenced
        else
          ((splitComp (bestComp (get_penalty vecs segment_len) vecs)
            sentenced).map joinSpace)
      Except.ok (paragraphs.map stripSpaces)
  else
    Except.ok (sentenced.map stripSpaces)

/-- The partition of the sentence sequence that split_to_pars uses:
the DP result on the segmented path, and the one-sentence-per-paragraph
partition on the exception and few-sentences fallback paths. -/
def chosenSegs (tokOut : Sum Str (List Str)) (table : List (Str × List ℤ))
    (segment_len : ℕ) (dpFail : Bool) : List (List Str) :=
  let sentenced := sentencedText tokOut
  if sentenced.length > segment_len ∧ dpFail = false then
    splitComp
      (bestComp (get_penalty (sentenced.map (vectorize table)) segment_len)
        (sentenced.map (vectorize table))) sentenced
  else
    sentenced.map (fun s => [s])

/-- Number of paragraphs of a split_to_pars outcome. -/
def parCount : Except Unit (List Str) → ℕ
  | Except.ok ps => ps.length
  | Except.error _ => 0

/-- Accumulator for the simple sentence splitter. -/
def splitSentAux (acc : Str) : Str → List Str
  | [] => if acc = [] then [] else [acc.reverse]
  | c :: cs =>
    if c = '.' || c = '!' || c = '?' then
      (c :: acc).reverse :: splitSentAux [] cs
    else splitSentAux (c :: acc) cs

/-- Modelled from the spec: the simple rule-based sentence tokenizer
(textsplit SimpleSentenceTokenizer, not repository code): split after
sentence-ending punctuation, strip each piece, drop empty pieces. -/
def tokenize_simple (t : Str) : List Str :=
  ((splitSentAux [] t).map stripWS).filter (fun s => !s.isEmpty)

theorem wordsAux_ws (c : Char) (hc : isPySpace c = true) :
    ∀ (x cur y : Str), wordsAux cur (x ++ c :: y) = wordsAux cur x ++ wordsAux [] y := by
  intro x
  induction x with
  | nil =>
    intro cur y
    by_cases hcur : cur = [] <;> simp [wordsAux, hc, hcur]
  | cons a x ih =>
    intro cur y
    cases ha : isPySpace a with
    | true =>
      by_cases hcur : cur = [] <;> simp [wordsAux, ha, hcur, ih]
    | false =>
      simp [wordsAux, ha, ih]

theorem words_joinSpace : ∀ l : List Str, words (joinSpace l) = (l.map words).flatten := by
  intro l
  induction l with
  | nil => rfl
  | cons s ss ih =>
    cases ss with
    | nil => simp [joinSpace, words]
    | cons t ts =>
      show words (s ++ ' ' :: joinSpace (t :: ts)) = _
      rw [words, wordsAux_ws ' ' (by decide) s [] (joinSpace (t :: ts))]
      show wordsAux [] s ++ words (joinSpace (t :: ts)) = _
      rw [ih]
      simp [words]

theorem words_all_ws : ∀ w : Str, (∀ c ∈ w, isPySpace c = true) → words w = [] := by
  intro w
  induction w with
  | nil => intro _; rfl
  | cons c cs ih =>
    intro h
    have hc := h c (by simp)
    have hrest := ih (fun d hd => h d (by simp [hd]))
    simp only [words, wordsAux, hc, if_true]
    simpa [words] using hrest

theorem words_append_ws (a w : Str) (hw : ∀ c ∈ w, isPySpace c = true) :
    words (a ++ w) = words a := by
  cases w with
  | nil => simp
  | cons c w2 =>
    have hc := hw c (by simp)
    rw [words, wordsAux_ws c hc a [] w2]
    have h2 : words w2 = [] := words_all_ws w2 (fun d hd => hw d (by simp [hd]))
    show wordsAux [] a ++ words w2 = words a
    rw [h2]
    simp [words]

theorem words_dropWhile (p : Char → Bool) (hp : ∀ c, p c = true → isPySpace c = true) :
    ∀ s : Str, words (List.dropWhile p s) = words s := by
  intro s
  induction s with
  | nil => rfl
  | cons c t ih =>
    cases hc : p c with
    | true =>
      rw [List.dropWhile_cons, if_pos hc, ih]
      simp [words, wordsAux, hp c hc]
    | false =>
      rw [List.dropWhile_cons, if_neg (by simp [hc])]

theorem dropTrailing_decomp (p : Char → Bool) (s : Str) :
    s = dropTrailing p s ++ (s.reverse.takeWhile p).reverse ∧
      ∀ c ∈ (s.reverse.takeWhile p).reverse, p c = true := by
  constructor
  · have h : s.reverse.takeWhile p ++ s.reverse.dropWhile p = s.reverse :=
      List.takeWhile_append_dropWhile p s.reverse
    calc s = s.reverse.reverse := (List.reverse_reverse s).symm
      _ = (s.reverse.takeWhile p ++ s.reverse.dropWhile p).reverse := by rw [h]
      _ = (s.reverse.dropWhile p).reverse ++ (s.reverse.takeWhile p).reverse := by
          rw [List.reverse_append]
      _ = dropTrailing p s ++ (s.reverse.takeWhile p).reverse := rfl
  · intro c hcmem
    exact List.mem_takeWhile_imp (List.mem_reverse.mp hcmem)

theorem words_stripWith (p : Char → Bool) (hp : ∀ c, p c = true → isPySpace c = true)
    (s : Str) : words (stripWith p s) = words s := by
  have h2 := dropTrailing_decomp p (s.dropWhile p)
  have hmain : words (dropTrailing p (s.dropWhile p)) = words (s.dropWhile p) := by
    conv_rhs => rw [h2.1]
    exact (words_append_ws _ _ (fun c hcm => hp c (h2.2 c hcm))).symm
  rw [stripWith, hmain, words_dropWhile p hp]

theorem words_stripSpaces (s : Str) : words (stripSpaces s) = words s := by
  apply words_stripWith
  intro c h
  have : c = ' ' := of_decide_eq_true h
  subst this
  decide

theorem words_stripWS (s : Str) : words (stripWS s) = words s := by
  exact words_stripWith isPySpace (fun _ h => h) s

theorem dropWhile_idem (p : Char → Bool) : ∀ s : Str,
    List.dropWhile p (List.dropWhile p s) = List.dropWhile p s := by
  intro s
  induction s with
  | nil => rfl
  | cons c t ih =>
    cases hc : p c with
    | true => rw [List.dropWhile_cons, if_pos hc, ih]
    | false =>
      rw [List.dropWhile_cons, if_neg (by simp [hc]),
        List.dropWhile_cons, if_neg (by simp [hc])]

theorem dropWhile_length_le (p : Char → Bool) (t : Str) :
    (List.dropWhile p t).length ≤ t.length := by
  induction t with
  | nil => simp
  | cons c r ih =>
    rw [List.dropWhile_cons]
    by_cases hc : p c
    · simp [hc]
      omega
    · simp [hc]

theorem dropWhile_cons_self (p : Char → Bool) (c : Char) (t : Str)
    (h : List.dropWhile p (c :: t) = c :: t) : p c = false := by
  cases hc : p c with
  | false => rfl
  | true =>
    exfalso
    rw [List.dropWhile_cons, if_pos hc] at h
    have hlen : (List.dropWhile p t).length ≤ t.length := dropWhile_length_le p t
    rw [h] at hlen
    simp at hlen

theorem dropTrailing_idem (p : Char → Bool) (s : Str) :
    dropTrailing p (dropTrailing p s) = dropTrailing p s := by
  unfold dropTrailing
  rw [List.reverse_reverse, dropWhile_idem]

theorem dropWhile_dropTrailing (p : Char → Bool) (x : Str)
    (hx : List.dropWhile p x = x) :
    List.dropWhile p (dropTrailing p x) = dropTrailing p x := by
  have hd := dropTrailing_decomp p x
  cases hdt : dropTrailing p x with
  | nil => rfl
  | cons c r =>
    have hxc : x = c :: (r ++ (x.reverse.takeWhile p).reverse) := by
      conv_lhs => rw [hd.1]
      rw [hdt]
      simp
    have hc : p c = false := by
      apply dropWhile_cons_self p c (r ++ (x.reverse.takeWhile p).reverse)
      rw [← hxc]
      exact hx
    rw [List.dropWhile_cons, if_neg (by simp [hc])]

theorem stripWith_idem (p : Char → Bool) (s : Str) :
    stripWith p (stripWith p s) = stripWith p s := by
  unfold stripWith
  rw [dropWhile_dropTrailing p (s.dropWhile p) (dropWhile_idem p s),
    dropTrailing_idem]

theorem stripWS_idem (s : Str) : stripWS (stripWS s) = stripWS s :=
  stripWith_idem isPySpace s

theorem splitComp_length : ∀ (c : List ℕ) (xs : List Str),
    (splitComp c xs).length = c.length := by
  intro c
  induction c with
  | nil => intro xs; rfl
  | cons k ks ih => intro xs; simp [splitComp, ih]

theorem splitComp_flatten : ∀ (c : List ℕ) (xs : List Str),
    c.sum = xs.length → (splitComp c xs).flatten = xs := by
  intro c
  induction c with
  | nil =>
    intro xs h
    simp at h
    have : xs = [] := List.length_eq_zero.mp h.symm
    subst this
    rfl
  | cons k ks ih =>
    intro xs h
    simp only [List.sum_cons] at h
    have hsum : ks.sum = (xs.drop k).length := by
      simp [List.length_drop]
      omega
    show ((xs.take k) :: splitComp ks (xs.drop k)).flatten = xs
    rw [List.flatten_cons, ih (xs.drop k) hsum, List.take_append_drop]

theorem flatten_singletons : ∀ l : List Str, (l.map (fun s => [s])).flatten = l := by
  intro l
  induction l with
  | nil => rfl
  | cons a t ih => simp [ih]

theorem compositions_sound : ∀ (n : ℕ) (c : List ℕ), c ∈ compositions n →
    c.sum = n ∧ ∀ x ∈ c, 0 < x := by
  intro n
  induction n with
  | zero =>
    intro c hc
    simp [compositions] at hc
    subst hc
    simp
  | succ n ih =>
    intro c hc
    simp only [compositions, List.mem_flatMap] at hc
    obtain ⟨c0, hc0, hmem⟩ := hc
    have h0 := ih c0 hc0
    rcases List.mem_cons.mp hmem with rfl | hext
    · refine ⟨by simp [h0.1]; omega, ?_⟩
      intro x hx
      rcases List.mem_cons.mp hx with rfl | hx'
      · omega
      · exact h0.2 x hx'
    · cases c0 with
      | nil => simp [extendHead] at hext
      | cons a c0t =>
        simp only [extendHead, List.mem_singleton] at hext
        subst hext
        have hs : a + c0t.sum = n := by simpa using h0.1
        refine ⟨by simp [List.sum_cons]; omega, ?_⟩
        intro x hx
        rcases List.mem_cons.mp hx with rfl | hx'
        · omega
        · exact h0.2 x (List.mem_cons_of_mem a hx')

theorem compositions_complete : ∀ (n : ℕ) (c : List ℕ),
    (∀ x ∈ c, 0 < x) → c.sum = n → c ∈ compositions n := by
  intro n
  induction n with
  | zero =>
    intro c hpos hsum
    cases c with
    | nil => simp [compositions]
    | cons a c2 =>
      exfalso
      have := hpos a (by simp)
      simp [List.sum_cons] at hsum
      omega
  | succ n ih =>
    intro c hpos hsum
    cases c with
    | nil => simp at hsum
    | cons a c2 =>
      have ha := hpos a (by simp)
      simp only [compositions, List.mem_flatMap]
      simp only [List.sum_cons] at hsum
      match a, ha with
      | 1, _ =>
        refine ⟨c2, ih c2 (fun x hx => hpos x (by simp [hx])) (by omega), ?_⟩
        simp
      | (b + 2), _ =>
        refine ⟨(b + 1) :: c2, ih ((b + 1) :: c2) ?_ ?_, ?_⟩
        · intro x hx
          rcases List.mem_cons.mp hx with rfl | hx'
          · omega
          · exact hpos x (by simp [hx'])
        · simp [List.sum_cons]
          omega
        · simp [extendHead]

theorem compositions_ne_nil (n : ℕ) : compositions n ≠ [] := by
  have h : List.replicate n 1 ∈ compositions n := by
    apply compositions_complete
    · intro x hx
      have := List.eq_of_mem_replicate hx
      omega
    · simp
  intro h0
  rw [h0] at h
  simp at h

theorem pickMin_isSome (f : List ℕ → ℤ) : ∀ l, l ≠ [] → ∃ m, pickMin f l = some m := by
  intro l hl
  cases l with
  | nil => exact absurd rfl hl
  | cons a t =>
    cases h : pickMin f t with
    | none => exact ⟨a, by simp [pickMin, h]⟩
    | some b =>
      by_cases hc : f b < f a
      · exact ⟨b, by simp [pickMin, h, hc]⟩
      · exact ⟨a, by simp [pickMin, h, hc]⟩

theorem pickMin_mem (f : List ℕ → ℤ) : ∀ l m, pickMin f l = some m → m ∈ l := by
  intro l
  induction l with
  | nil => intro m h; simp [pickMin] at h
  | cons a t ih =>
    intro m h
    cases hp : pickMin f t with
    | none =>
      simp [pickMin, hp] at h
      subst h
      simp
    | some b =>
      by_cases hc : f b < f a
      · simp [pickMin, hp, hc] at h
        subst h
        exact List.mem_cons_of_mem a (ih b hp)
      · simp [pickMin, hp, hc] at h
        subst h
        simp

theorem pickMin_le (f : List ℕ → ℤ) : ∀ l m, pickMin f l = some m →
    ∀ a ∈ l, f m ≤ f a := by
  intro l
  induction l with
  | nil => intro m h; simp [pickMin] at h
  | cons a t ih =>
    intro m h x hx
    cases hp : pickMin f t with
    | none =>
      have ht : t = [] := by
        cases t with
        | nil => rfl
        | cons u v =>
          obtain ⟨m2, hm2⟩ := pickMin_isSome f (u :: v) (by simp)
          rw [hm2] at hp
          simp at hp
      subst ht
      simp [pickMin] at h
      subst h
      simp at hx
      subst hx
      exact le_refl _
    | some b =>
      by_cases hc : f b < f a
      · simp [pickMin, hp, hc] at h
        subst h
        rcases List.mem_cons.mp hx with rfl | hx'
        · exact le_of_lt hc
        · exact ih b hp x hx'
      · simp [pickMin, hp, hc] at h
        subst h
        rcases List.mem_cons.mp hx with rfl | hx'
        · exact le_refl _
        · exact le_trans (not_lt.mp hc) (ih b hp x hx')

theorem bestComp_spec (p : ℤ) (vecs : List (List ℤ)) :
    pickMin (totalCost p vecs) (compositions vecs.length) = some (bestComp p vecs) := by
  obtain ⟨m, hm⟩ := pickMin_isSome (totalCost p vecs) (compositions vecs.length)
    (compositions_ne_nil vecs.length)
  rw [bestComp, hm]
  rfl

theorem bestComp_mem (p : ℤ) (vecs : List (List ℤ)) :
    bestComp p vecs ∈ compositions vecs.length :=
  pickMin_mem (totalCost p vecs) (compositions vecs.length) (bestComp p vecs)
    (bestComp_spec p vecs)

theorem bestComp_min (p : ℤ) (vecs : List (List ℤ)) :
    ∀ c ∈ compositions vecs.length,
      totalCost p vecs (bestComp p vecs) ≤ totalCost p vecs c :=
  pickMin_le (totalCost p vecs) (compositions vecs.length) (bestComp p vecs)
    (bestComp_spec p vecs)

theorem bestComp_sum (p : ℤ) (vecs : List (List ℤ)) :
    (bestComp p vecs).sum = vecs.length :=
  (compositions_sound vecs.length (bestComp p vecs) (bestComp_mem p vecs)).1

theorem bestComp_length_antimono (vecs : List (List ℤ)) (p1 p2 : ℤ) (hp : p1 ≤ p2) :
    (bestComp p2 vecs).length ≤ (bestComp p1 vecs).length := by
  rcases eq_or_lt_of_le hp with rfl | hlt
  · exact le_refl _
  · have h1 := bestComp_min p1 vecs (bestComp p2 vecs) (bestComp_mem p2 vecs)
    have h2 := bestComp_min p2 vecs (bestComp p1 vecs) (bestComp_mem p1 vecs)
    simp only [totalCost] at h1 h2
    by_contra hL
    push_neg at hL
    have hLq : ((bestComp p1 vecs).length : ℤ) < ((bestComp p2 vecs).length : ℤ) := by
      exact_mod_cast hL
    nlinarith [h1, h2, mul_pos (sub_pos.mpr hlt) (sub_pos.mpr hLq)]

theorem sqNorm_nonneg (v : List ℤ) : 0 ≤ sqNorm v := by
  rw [sqNorm, dotProd, List.zipWith_same]
  apply List.sum_nonneg
  intro x hx
  simp only [List.mem_map] at hx
  obtain ⟨a, _, rfl⟩ := hx
  exact mul_self_nonneg a

theorem get_penalty_nonneg (vecs : List (List ℤ)) (l : ℕ) :
    0 ≤ get_penalty vecs l := by
  rw [get_penalty]
  apply mul_nonneg (by positivity)
  apply List.sum_nonneg
  intro x hx
  simp only [List.mem_map] at hx
  obtain ⟨v, _, rfl⟩ := hx
  exact sqNorm_nonneg v

theorem get_penalty_mono (vecs : List (List ℤ)) (l1 l2 : ℕ) (h : l1 ≤ l2) :
    get_penalty vecs l1 ≤ get_penalty vecs l2 := by
  rw [get_penalty, get_penalty]
  apply mul_le_mul_of_nonneg_right (by exact_mod_cast h)
  apply List.sum_nonneg
  intro x hx
  simp only [List.mem_map] at hx
  obtain ⟨v, _, rfl⟩ := hx
  exact sqNorm_nonneg v

theorem split_to_pars_ok_eq (tokOut : Sum Str (List Str)) (table : List (Str × List ℤ))
    (segment_len : ℕ) (vecFail dpFail : Bool) (ps : List Str)
    (h : split_to_pars tokOut table segment_len vecFail dpFail = Except.ok ps) :
    ps = (chosenSegs tokOut table segment_len dpFail).map
      (fun g => stripSpaces (joinSpace g)) := by
  by_cases hlen : (sentencedText tokOut).length > segment_len
  · cases vecFail with
    | true => simp [split_to_pars, hlen] at h
    | false =>
      cases dpFail with
      | true =>
        simp [split_to_pars, hlen] at h
        subst h
        simp [chosenSegs, hlen, List.map_map, joinSpace]
      | false =>
        simp [split_to_pars, hlen] at h
        subst h
        simp [chosenSegs, hlen, List.map_map]
  · simp [split_to_pars, hlen] at h
    subst h
    have hcond : ¬ ((sentencedText tokOut).length > segment_len ∧ dpFail = false) := by
      intro hco
      exact hlen hco.1
    simp [chosenSegs, hcond, List.map_map, joinSpace]

theorem chosenSegs_flatten (tokOut : Sum Str (List Str)) (table : List (Str × List ℤ))
    (segment_len : ℕ) (dpFail : Bool) :
    (chosenSegs tokOut table segment_len dpFail).flatten = sentencedText tokOut := by
  rw [chosenSegs]
  split_ifs with h
  · apply splitComp_flatten
    have := bestComp_sum
      (get_penalty ((sentencedText tokOut).map (vectorize table)) segment_len)
      ((sentencedText tokOut).map (vectorize table))
    simpa using this
  · exact flatten_singletons (sentencedText tokOut)

theorem chosenSegs_length_dp (tokOut : Sum Str (List Str)) (table : List (Str × List ℤ))
    (segment_len : ℕ) (hlen : (sentencedText tokOut).length > segment_len) :
    (chosenSegs tokOut table segment_len false).length =
      (bestComp (get_penalty ((sentencedText tokOut).map (vectorize table)) segment_len)
        ((sentencedText tokOut).map (vectorize table))).length := by
  rw [chosenSegs]
  rw [if_pos (by exact ⟨hlen, rfl⟩)]
  exact splitComp_length _ _

theorem flatten_words_flatten : ∀ segs : List (List Str),
    (segs.map (fun g => ((g.map words).flatten))).flatten =
      ((segs.flatten).map words).flatten := by
  intro segs
  induction segs with
  | nil => rfl
  | cons g sg ih => simp [List.map_append, ih]

theorem words_join_segs (segs : List (List Str)) :
    words (joinSpace (segs.map (fun g => stripSpaces (joinSpace g)))) =
      words (joinSpace segs.flatten) := by
  rw [words_joinSpace, words_joinSpace, List.map_map]
  have hmap : (words ∘ fun g => stripSpaces (joinSpace g)) =
      (fun g : List Str => ((g.map words).flatten)) := by
    funext g
    show words (stripSpaces (joinSpace g)) = _
    rw [words_stripSpaces, words_joinSpace]
  rw [hmap, flatten_words_flatten]

def demoSents : List Str := [['a'], ['a'], ['a'], ['a'], ['a'], ['a']]

def demoTable : List (Str × List ℤ) := [(['a'], [1])]

def demo3 : List Str := [['a'], ['a'], ['a']]

/-- Claim C1: for every input, the paragraphs returned by split_to_pars,
concatenated with single spaces and whitespace-normalized, equal the
whitespace-normalized concatenation of the input sentences in order (no
text duplicated or dropped), and the number of paragraphs equals the
number of segments of the chosen partition. -/
theorem claim_C1_coverage (tokOut : Sum Str (List Str)) (table : List (Str × List ℤ))
    (segment_len : ℕ) (vecFail dpFail : Bool) (ps : List Str)
    (h : split_to_pars tokOut table segment_len vecFail dpFail = Except.ok ps) :
    normalizeWS (joinSpace ps) = normalizeWS (joinSpace (sentencedText tokOut)) ∧
      ps.length = (chosenSegs tokOut table segment_len dpFail).length := by
  have hps := split_to_pars_ok_eq tokOut table segment_len vecFail dpFail ps h
  constructor
  · rw [hps, normalizeWS, normalizeWS, words_join_segs, chosenSegs_flatten]
  · rw [hps, List.length_map]

theorem claim_C1_coverage_witness :
    normalizeWS (joinSpace [['a', 'b'], ['c', 'd']]) =
      normalizeWS (joinSpace (sentencedText (Sum.inr [['a', 'b'], ['c', 'd']]))) ∧
    ([['a', 'b'], ['c', 'd']] : List Str).length =
      (chosenSegs (Sum.inr [['a', 'b'], ['c', 'd']]) [] 5 false).length :=
  claim_C1_coverage (Sum.inr [['a', 'b'], ['c', 'd']]) [] 5 false false
    [['a', 'b'], ['c', 'd']] rfl

/-- Claim C2 counterexample: on the few-sentences fallback path the
sentence sequence is not returned unchanged; line 187 strips spaces, so
the sentence " a" produced by the degenerate "."-split comes back as
"a". -/
theorem claim_C2_counterexample :
    split_to_pars (Sum.inl ['x', '.', ' ', 'a']) [] 5 false false =
      Except.ok [['x'], ['a']] ∧
    sentencedText (Sum.inl ['x', '.', ' ', 'a']) = [['x'], [' ', 'a']] ∧
    ([['x'], ['a']] : List Str) ≠ [['x'], [' ', 'a']] := by
  refine ⟨rfl, rfl, by decide⟩

/-- Claim C2 (amended): when the sentence count is at most segment_len,
split_to_pars skips the DP and returns one paragraph per sentence, each
sentence stripped of leading/trailing space characters — the sequence
unchanged exactly when no sentence carries surrounding spaces — and the
paragraph count equals the sentence count. -/
theorem claim_C2_fallback (tokOut : Sum Str (List Str)) (table : List (Str × List ℤ))
    (segment_len : ℕ) (vecFail dpFail : Bool)
    (h : (sentencedText tokOut).length ≤ segment_len) :
    split_to_pars tokOut table segment_len vecFail dpFail =
      Except.ok ((sentencedText tokOut).map stripSpaces) ∧
    ((sentencedText tokOut).map stripSpaces).length =
      (sentencedText tokOut).length ∧
    ((∀ s ∈ sentencedText tokOut, stripSpaces s = s) →
      split_to_pars tokOut table segment_len vecFail dpFail =
        Except.ok (sentencedText tokOut)) := by
  have hlen : ¬ ((sentencedText tokOut).length > segment_len) := not_lt.mpr h
  refine ⟨by simp [split_to_pars, hlen], by simp, ?_⟩
  intro hs
  have hmap : (sentencedText tokOut).map stripSpaces = sentencedText tokOut := by
    conv_rhs => rw [← List.map_id (sentencedText tokOut)]
    exact List.map_congr_left (fun s hs2 => hs s hs2)
  simp [split_to_pars, hlen, hmap]

theorem claim_C2_fallback_witness :
    split_to_pars (Sum.inr demo3) demoTable 5 false false =
      Except.ok ((sentencedText (Sum.inr demo3)).map stripSpaces) ∧
    ((sentencedText (Sum.inr demo3)).map stripSpaces).length =
      (sentencedText (Sum.inr demo3)).length ∧
    ((∀ s ∈ sentencedText (Sum.inr demo3), stripSpaces s = s) →
      split_to_pars (Sum.inr demo3) demoTable 5 false false =
        Except.ok (sentencedText (Sum.inr demo3))) :=
  claim_C2_fallback (Sum.inr demo3) demoTable 5 false false (by decide)

/-- Claim C3 counterexample: on the exception-fallback path the
returned sequence is not the whitespace-stripped sentence sequence: a
tab-edged sentence comes back with its tab, because line 187 strips only
the space character. -/
theorem claim_C3_counterexample :
    split_to_pars (Sum.inr [['\t', 'a'], ['b']]) [] 1 false true =
      Except.ok [['\t', 'a'], ['b']] ∧
    ([['\t', 'a'], ['b']] : List Str).map stripWS = [['a'], ['b']] ∧
    ([['\t', 'a'], ['b']] : List Str) ≠ [['a'], ['b']] := by
  refine ⟨rfl, rfl, by decide⟩

/-- Claim C3 (amended): a failure raised inside the guarded region
(penalty computation, DP, or segment assembly) never propagates to the
caller: split_to_pars returns the sentence sequence one paragraph per
sentence, stripped of leading/trailing space characters only (not all
whitespace). -/
theorem claim_C3_degrade (tokOut : Sum Str (List Str)) (table : List (Str × List ℤ))
    (segment_len : ℕ) :
    split_to_pars tokOut table segment_len false true =
      Except.ok ((sentencedText tokOut).map stripSpaces) := by
  by_cases hlen : (sentencedText tokOut).length > segment_len
  · simp [split_to_pars, hlen]
  · simp [split_to_pars, hlen]

/-- Claim C4 counterexample: on zero sentences split_to_pars returns the
empty paragraph list, not the whole input text as a single paragraph. -/
theorem claim_C4_counterexample :
    tokenize_simple [] = [] ∧
    split_to_pars (Sum.inr (tokenize_simple [])) [] 5 false false =
      Except.ok [] ∧
    split_to_pars (Sum.inr (tokenize_simple [])) [] 5 false false ≠
      Except.ok [([] : Str)] := by
  refine ⟨rfl, rfl, ?_⟩
  intro h
  have h2 : ([] : List Str) = [([] : Str)] := Except.ok.inj h
  simp at h2

/-- Claim C4 (amended): when the tokenizer produces zero sentences,
split_to_pars returns the empty paragraph list. -/
theorem claim_C4_zero_sentences (tokOut : Sum Str (List Str))
    (table : List (Str × List ℤ)) (segment_len : ℕ) (vecFail dpFail : Bool)
    (h : sentencedText tokOut = []) :
    split_to_pars tokOut table segment_len vecFail dpFail = Except.ok [] := by
  have hlen : ¬ ((sentencedText tokOut).length > segment_len) := by
    rw [h]
    simp
  simp [split_to_pars, hlen, h]

theorem claim_C4_zero_sentences_witness :
    split_to_pars (Sum.inr (tokenize_simple [])) [] 5 false false =
      Except.ok [] :=
  claim_C4_zero_sentences (Sum.inr (tokenize_simple [])) [] 5 false false rfl

/-- Claim C5 counterexample: with six identical one-dimensional sentence
vectors, segment_len 1 takes the DP path and yields one paragraph, while
the larger segment_len 6 reaches the fallback threshold and yields six
paragraphs — increasing the target segment length increased the paragraph
count. -/
theorem claim_C5_counterexample :
    (1 : ℕ) < 6 ∧
    parCount (split_to_pars (Sum.inr demoSents) demoTable 1 false false) = 1 ∧
    parCount (split_to_pars (Sum.inr demoSents) demoTable 6 false false) = 6 := by
  refine ⟨by decide, by decide, by decide⟩

/-- Claim C5 (amended): the calibrated penalty is non-negative and
non-decreasing in the target segment length, and as long as both segment
lengths stay below the sentence count (so the DP path is taken for both)
increasing segment_len does not increase the number of paragraphs; the
counterexample shows the count can grow once segment_len reaches the
fallback threshold. -/
theorem claim_C5_dp_monotone (tokOut : Sum Str (List Str))
    (table : List (Str × List ℤ)) (l1 l2 : ℕ)
    (h12 : l1 ≤ l2) (h2 : l2 < (sentencedText tokOut).length) :
    parCount (split_to_pars tokOut table l2 false false) ≤
      parCount (split_to_pars tokOut table l1 false false) ∧
    0 ≤ get_penalty ((sentencedText tokOut).map (vectorize table)) l1 ∧
    get_penalty ((sentencedText tokOut).map (vectorize table)) l1 ≤
      get_penalty ((sentencedText tokOut).map (vectorize table)) l2 := by
  have hlen1 : (sentencedText tokOut).length > l1 := lt_of_le_of_lt h12 h2
  have hlen2 : (sentencedText tokOut).length > l2 := h2
  have hc1 : parCount (split_to_pars tokOut table l1 false false) =
      (bestComp (get_penalty ((sentencedText tokOut).map (vectorize table)) l1)
        ((sentencedText tokOut).map (vectorize table))).length := by
    simp [split_to_pars, hlen1, parCount, splitComp_length]
  have hc2 : parCount (split_to_pars tokOut table l2 false false) =
      (bestComp (get_penalty ((sentencedText tokOut).map (vectorize table)) l2)
        ((sentencedText tokOut).map (vectorize table))).length := by
    simp [split_to_pars, hlen2, parCount, splitComp_length]
  refine ⟨?_, get_penalty_nonneg _ _, get_penalty_mono _ _ _ h12⟩
  rw [hc1, hc2]
  exact bestComp_length_antimono _ _ _ (get_penalty_mono _ _ _ h12)

theorem claim_C5_dp_monotone_witness :
    parCount (split_to_pars (Sum.inr demo3) demoTable 2 false false) ≤
      parCount (split_to_pars (Sum.inr demo3) demoTable 1 false false) ∧
    0 ≤ get_penalty ((sentencedText (Sum.inr demo3)).map (vectorize demoTable)) 1 ∧
    get_penalty ((sentencedText (Sum.inr demo3)).map (vectorize demoTable)) 1 ≤
      get_penalty ((sentencedText (Sum.inr demo3)).map (vectorize demoTable)) 2 :=
  claim_C5_dp_monotone (Sum.inr demo3) demoTable 1 2 (by decide) (by decide)

/-- Claim C6 counterexample: the degenerate-model recovery that splits a
single returned string on "." produces an empty sentence from "a." and an
unstripped sentence " b" from "a. b". -/
theorem claim_C6_counterexample :
    sentencedText (Sum.inl ['a', '.']) = [['a'], []] ∧
    ([] : Str) ∈ sentencedText (Sum.inl ['a', '.']) ∧
    sentencedText (Sum.inl ['a', '.', ' ', 'b']) = [['a'], [' ', 'b']] ∧
    stripWS [' ', 'b'] ≠ [' ', 'b'] := by
  refine ⟨rfl, by decide, rfl, by decide⟩

/-- Claim C6 (amended): the modelled simple tokenizer yields no empty
string and every sentence it yields is whitespace-stripped; the
degenerate "."-split recovery, however, can introduce empty and
unstripped sentences (see counterexample). -/
theorem claim_C6_tokenizer_hygiene (t s : Str) (hs : s ∈ tokenize_simple t) :
    s ≠ [] ∧ stripWS s = s := by
  rw [tokenize_simple] at hs
  have hmem := List.mem_filter.mp hs
  obtain ⟨x, _, rfl⟩ := List.mem_map.mp hmem.1
  refine ⟨?_, stripWS_idem x⟩
  have h2 := hmem.2
  simpa using h2

theorem claim_C6_tokenizer_hygiene_witness :
    (['h', 'i', '.'] : Str) ≠ [] ∧ stripWS ['h', 'i', '.'] = ['h', 'i', '.'] :=
  claim_C6_tokenizer_hygiene ['h', 'i', '.'] ['h', 'i', '.'] (by decide)

/-- Claim C7 counterexample: a paragraph returned by split_to_pars can
keep leading whitespace other than the space character, because line 187
strips only " ": the sentence "\t a" with a tab comes back unchanged. -/
theorem claim_C7_counterexample :
    split_to_pars (Sum.inr [['\t', 'a']]) [] 5 false false =
      Except.ok [['\t', 'a']] ∧
    stripWS ['\t', 'a'] ≠ ['\t', 'a'] := by
  exact ⟨rfl, by decide⟩

/-- Claim C7 (amended): on every path, each returned paragraph is the
single-space join of its segment's sentences with leading and trailing
SPACE characters (only the space character, not all whitespace)
trimmed. -/
theorem claim_C7_paragraph_trim (tokOut : Sum Str (List Str))
    (table : List (Str × List ℤ)) (segment_len : ℕ) (vecFail dpFail : Bool)
    (ps : List Str)
    (h : split_to_pars tokOut table segment_len vecFail dpFail = Except.ok ps) :
    ∃ segs : List (List Str), segs.flatten = sentencedText tokOut ∧
      ps = segs.map (fun g => stripSpaces (joinSpace g)) :=
  ⟨chosenSegs tokOut table segment_len dpFail,
    chosenSegs_flatten tokOut table segment_len dpFail,
    split_to_pars_ok_eq tokOut table segment_len vecFail dpFail ps h⟩

theorem claim_C7_paragraph_trim_witness :
    ∃ segs : List (List Str), segs.flatten = sentencedText (Sum.inr [[' ', 'a']]) ∧
      [['a']] = segs.map (fun g => stripSpaces (joinSpace g)) :=
  claim_C7_paragraph_trim (Sum.inr [[' ', 'a']]) [] 5 false false [['a']] rfl

/-- Claim C8: the catch-and-degrade protection covers only the penalty
computation, DP and assembly; vectorization runs before the guarded
region, so a vectorization failure on the segmentation path propagates to
the caller as a hard error, while a guarded failure degrades to the
fallback paragraph list. -/
theorem claim_C8_unguarded_vectorization (tokOut : Sum Str (List Str))
    (table : List (Str × List ℤ)) (segment_len : ℕ) (dpFail : Bool)
    (h : (sentencedText tokOut).length > segment_len) :
    split_to_pars tokOut table segment_len true dpFail = Except.error () ∧
    split_to_pars tokOut table segment_len false true =
      Except.ok ((sentencedText tokOut).map stripSpaces) := by
  constructor
  · simp [split_to_pars, h]
  · simp [split_to_pars, h]

theorem claim_C8_unguarded_vectorization_witness :
    split_to_pars (Sum.inr demoSents) demoTable 5 true false = Except.error () ∧
    split_to_pars (Sum.inr demoSents) demoTable 5 false true =
      Except.ok ((sentencedText (Sum.inr demoSents)).map stripSpaces) :=
  claim_C8_unguarded_vectorization (Sum.inr demoSents) demoTable 5 false (by decide)

/-- Emission formatting of a split paragraph in generic_text: eight
spaces then the paragraph stripped of all whitespace (pdf.py line 466,
Python strip() with no argument). -/
def fmtPar (p : Str) : Str := List.replicate 8 ' ' ++ stripWS p

/-- Paragraph list of a successful split; empty on a hard error. -/
def okPars : Except Unit (List Str) → List Str
  | Except.ok ps => ps
  | Except.error _ => []

/-- Translated from PDF.generic_text, pdf.py lines 437-468: when the
instance flag split_paragraphs or the call argument split_paragraphs is
set, the text is split (split_to_pars with its default segment length 5)
and each formatted paragraph is emitted; afterwards the whole original
text is emitted unconditionally.  The function returns the multi_cell
text payloads in emission order. -/
def generic_text (theText : Str) (tokOut : Sum Str (List Str))
    (table : List (Str × List ℤ)) (instSplit argSplit : Bool) : List Str :=
  (if instSplit || argSplit then
    (okPars (split_to_pars tokOut table 5 false false)).map fmtPar
  else []) ++ [theText]

/-- Claim C9: with paragraph splitting in effect (instance flag or call
argument), generic_text emits every split paragraph and then
unconditionally emits the entire original text once more, so the content
appears twice; with splitting off, the text is emitted exactly once. -/
theorem claim_C9_duplicate_emission (theText : Str) (tokOut : Sum Str (List Str))
    (table : List (Str × List ℤ)) (instSplit argSplit : Bool) :
    ((instSplit || argSplit) = true →
      generic_text theText tokOut table instSplit argSplit =
        (okPars (split_to_pars tokOut table 5 false false)).map fmtPar ++
          [theText] ∧
      theText ∈ generic_text theText tokOut table instSplit argSplit) ∧
    ((instSplit || argSplit) = false →
      generic_text theText tokOut table instSplit argSplit = [theText]) := by
  constructor
  · intro h
    constructor
    · simp [generic_text, h]
    · simp [generic_text, h]
  · intro h
    simp [generic_text, h]

theorem claim_C9_duplicate_emission_witness :
    generic_text ['t'] (Sum.inr [['t']]) [] true false =
      (okPars (split_to_pars (Sum.inr [['t']]) [] 5 false false)).map fmtPar ++
        [['t']] ∧
    (['t'] : Str) ∈ generic_text ['t'] (Sum.inr [['t']]) [] true false :=
  (claim_C9_duplicate_emission ['t'] (Sum.inr [['t']]) [] true false).1 rfl

/-- Numeric value of a digit run, as Python int() of the matched text. -/
def digitsToNat (d : Str) : ℕ := d.foldl (fun a c => 10 * a + (c.toNat - 48)) 0

/-- The first maximal digit run of a string, as matched by the regex
searching for one or more digits in get_first_number. -/
def firstNum : Str → Option ℕ
  | [] => none
  | c :: cs =>
    if c.isDigit then some (digitsToNat (c :: cs.takeWhile Char.isDigit))
    else firstNum cs

/-- Translated from get_first_number, utils.py lines 61-80: the first
number found in the string; when no digit is present the function warns
and returns a fresh random integer, modelled by the rng argument (drawn
from [0, 10^8] in the source). -/
def get_first_number (rng : ℕ) (s : Str) : ℕ :=
  match firstNum s with
  | some n => n
  | none => rng

def hasDigit (s : Str) : Bool := s.any Char.isDigit

/-- Key each file name with its get_first_number value; the i-th call
consumes the i-th random draw of the stream. -/
def keyedFiles (rng : ℕ → ℕ) : ℕ → List Str → List (Str × ℕ)
  | _, [] => []
  | i, f :: fs => (f, get_first_number (rng i) f) :: keyedFiles rng (i + 1) fs

/-- Stable insertion by ascending value. -/
def insertByVal (x : Str × ℕ) : List (Str × ℕ) → List (Str × ℕ)
  | [] => [x]
  | y :: l => if y.2 < x.2 then y :: insertByVal x l else x :: y :: l

/-- Stable sort by ascending value, modelling natsorted on the
(file, id) items by their integer values (dict_sort_by_vals). -/
def sortByVals : List (Str × ℕ) → List (Str × ℕ)
  | [] => []
  | x :: l => insertByVal x (sortByVals l)

/-- Translated from load_files_ext, utils.py lines 138-162: the
discovered files (the glob listing, taken as given in listing order) are
keyed by get_first_number of their names and returned sorted by
ascending key. -/
def load_files_ext (files : List Str) (rng : ℕ → ℕ) : List Str :=
  (sortByVals (keyedFiles rng 0 files)).map Prod.fst

theorem insertByVal_mem (x : Str × ℕ) : ∀ l z, z ∈ insertByVal x l →
    z = x ∨ z ∈ l := by
  intro l
  induction l with
  | nil =>
    intro z hz
    simp [insertByVal] at hz
    exact Or.inl hz
  | cons y l ih =>
    intro z hz
    by_cases hc : y.2 < x.2
    · simp only [insertByVal, if_pos hc] at hz
      rcases List.mem_cons.mp hz with rfl | hz'
      · exact Or.inr (by simp)
      · rcases ih z hz' with h1 | h2
        · exact Or.inl h1
        · exact Or.inr (by simp [h2])
    · simp only [insertByVal, if_neg hc] at hz
      rcases List.mem_cons.mp hz with rfl | hz'
      · exact Or.inl rfl
      · exact Or.inr hz'

theorem insertByVal_sorted (x : Str × ℕ) : ∀ l,
    List.Pairwise (fun a b : Str × ℕ => a.2 ≤ b.2) l →
    List.Pairwise (fun a b : Str × ℕ => a.2 ≤ b.2) (insertByVal x l) := by
  intro l
  induction l with
  | nil => intro _; simp [insertByVal]
  | cons y l ih =>
    intro h
    rw [List.pairwise_cons] at h
    by_cases hc : y.2 < x.2
    · rw [insertByVal, if_pos hc, List.pairwise_cons]
      constructor
      · intro z hz
        rcases insertByVal_mem x l z hz with rfl | hz'
        · exact le_of_lt hc
        · exact h.1 z hz'
      · exact ih h.2
    · rw [insertByVal, if_neg hc, List.pairwise_cons]
      constructor
      · intro z hz
        rcases List.mem_cons.mp hz with rfl | hz'
        · exact not_lt.mp hc
        · exact le_trans (not_lt.mp hc) (h.1 z hz')
      · exact List.pairwise_cons.mpr h

theorem sortByVals_sorted : ∀ l,
    List.Pairwise (fun a b : Str × ℕ => a.2 ≤ b.2) (sortByVals l) := by
  intro l
  induction l with
  | nil => simp [sortByVals]
  | cons x l ih => exact insertByVal_sorted x (sortByVals l) ih

theorem firstNum_isSome_of_hasDigit : ∀ s : Str, hasDigit s = true →
    ∃ n, firstNum s = some n := by
  intro s
  induction s with
  | nil => intro h; simp [hasDigit] at h
  | cons c cs ih =>
    intro h
    cases hc : c.isDigit with
    | true =>
      exact ⟨digitsToNat (c :: cs.takeWhile Char.isDigit), by simp [firstNum, hc]⟩
    | false =>
      have h2 : hasDigit cs = true := by
        simp [hasDigit, hc] at h
        simpa [hasDigit] using h
      obtain ⟨n, hn⟩ := ih h2
      exact ⟨n, by simp [firstNum, hc, hn]⟩

theorem get_first_number_indep (f : Str) (h : hasDigit f = true) (r1 r2 : ℕ) :
    get_first_number r1 f = get_first_number r2 f := by
  obtain ⟨n, hn⟩ := firstNum_isSome_of_hasDigit f h
  simp [get_first_number, hn]

theorem keyedFiles_rng_irrelevant (rng1 rng2 : ℕ → ℕ) :
    ∀ (files : List Str) (i j : ℕ), (∀ f ∈ files, hasDigit f = true) →
      keyedFiles rng1 i files = keyedFiles rng2 j files := by
  intro files
  induction files with
  | nil => intro i j _; rfl
  | cons f fs ih =>
    intro i j h
    have hf := get_first_number_indep f (h f (by simp)) (rng1 i) (rng2 j)
    simp only [keyedFiles, hf]
    rw [ih (i + 1) (j + 1) (fun g hg => h g (by simp [hg]))]

/-- Claim C10: when every listed filename contains a digit, the order
returned by load_files_ext is deterministic — two runs with different
random streams agree — and is sorted by ascending first-number key;
for digitless names the sort key is a fresh random draw, and two runs on
the same listing can return the files in different orders (concrete
instance: names "a" and "b" under two random streams). -/
theorem claim_C10_ordering (files : List Str) (rng1 rng2 : ℕ → ℕ)
    (h : ∀ f ∈ files, hasDigit f = true) :
    load_files_ext files rng1 = load_files_ext files rng2 ∧
    List.Pairwise (fun a b : Str × ℕ => a.2 ≤ b.2)
      (sortByVals (keyedFiles rng1 0 files)) ∧
    load_files_ext [['a'], ['b']] (fun i => i) ≠
      load_files_ext [['a'], ['b']] (fun i => 1 - i) := by
  refine ⟨?_, sortByVals_sorted _, by decide⟩
  rw [load_files_ext, load_files_ext,
    keyedFiles_rng_irrelevant rng1 rng2 files 0 0 h]

theorem claim_C10_ordering_witness :
    load_files_ext [['1', 'a']] (fun i => i) =
      load_files_ext [['1', 'a']] (fun i => i + 7) ∧
    List.Pairwise (fun a b : Str × ℕ => a.2 ≤ b.2)
      (sortByVals (keyedFiles (fun i => i) 0 [['1', 'a']])) ∧
    load_files_ext [['a'], ['b']] (fun i => i) ≠
      load_files_ext [['a'], ['b']] (fun i => 1 - i) :=
  claim_C10_ordering [['1', 'a']] (fun i => i) (fun i => i + 7) (by decide)
